import Mathlib

/-!
Verification of the sternhalma-server repository against its specification.

The development shallowly embeds the Rust sources:
* `src/sterhalma/board/mod.rs`, `src/sterhalma/board/movement.rs`,
  `src/sterhalma/board/player.rs` — board representation, neighbour lookup,
  movement generation, checked and unchecked movement application, scores
  and win detection;
* `src/sternhalma/mod.rs` — the `Game` state machine (`next_status`,
  `apply_movement_unchecked`);
* `src/server/protocol.rs` — the length-delimited framing layer;
* `src/server/mod.rs` — the coordinator's turn handling and free-slot
  replies;
* `src/server/client.rs` — the per-connection task's perspective
  transforms and its remote-stream loop.

Machine integers (`usize`) are modelled as `Nat`; `checked_sub` is modelled
explicitly; Rust `Option<Option<T>>` board positions become
`Option (Option T)`.
-/

set_option maxHeartbeats 1000000
set_option maxRecDepth 4096
set_option linter.unreachableTactic false
set_option linter.unnecessarySeqFocus false
set_option linter.unusedTactic false
set_option linter.unusedVariables false

namespace SternhalmaServer

/-- Rust `Player` (`src/sterhalma/board/player.rs`). -/
inductive Player where
  | player1
  | player2
deriving DecidableEq, Repr

/-- Rust `Player::variants()`. -/
def Player.variants : List Player := [Player.player1, Player.player2]

/-- Rust `Player::opponent`. -/
def Player.opponent : Player → Player
  | .player1 => .player2
  | .player2 => .player1

/-- Rust `PLAYER_COUNT` (= `Player::variants().len()` = 2). -/
def PLAYER_COUNT : Nat := 2

/-- Rust `BOARD_LENGTH` (`src/sterhalma/board/mod.rs`). -/
def BOARD_LENGTH : Nat := 17

/-- Rust `HexIdx = [usize; 2]`, axial index on the lattice. -/
abbrev HexIdx := Nat × Nat

/-- Rust `Position<T> = Option<Option<T>>`:
`none` = outside the board, `some none` = valid and empty,
`some (some piece)` = valid and occupied. -/
abbrev Position (α : Type) := Option (Option α)

/-- The Rust `Board<T>` stores a row-major `17 × 17` array of positions;
we model it as a total map from axial index to position (cells outside the
star region hold `none`, matching the array contents). -/
abbrev Board (α : Type) := HexIdx → Position α

/-- Rust `usize::checked_sub`. -/
def checkedSub (n k : Nat) : Option Nat :=
  if k ≤ n then some (n - k) else none

/-- All indices of the row-major 17×17 lattice, in the order Rust's
`iter().enumerate()` visits them (`[i / 17, i % 17]` for `i < 289`). -/
def allIndices : List HexIdx :=
  (List.range (BOARD_LENGTH * BOARD_LENGTH)).map (fun i => (i / 17, i % 17))

/-- Modelled from the spec: the lookup-table module `board::lut` is not in
`src/`.  The spec fixes the valid region as the 121-cell six-point star on
the 17×17 axial lattice: the union of the downward triangle
`{4 ≤ row, 4 ≤ col, row + col ≤ 20}` and the upward triangle
`{row ≤ 12, col ≤ 12, 12 ≤ row + col}` (each of side 13, overlapping in the
central hexagon). -/
def validCell (idx : HexIdx) : Bool :=
  (4 ≤ idx.1 && 4 ≤ idx.2 && idx.1 + idx.2 ≤ 20) ||
  (idx.1 ≤ 12 && idx.2 ≤ 12 && 12 ≤ idx.1 + idx.2)

/-- Modelled from the spec: `lut::VALID_POSITIONS`, the 121 valid star
cells, in row-major order. -/
def VALID_POSITIONS : List HexIdx := allIndices.filter validCell

/-- Modelled from the spec: `lut::PLAYER1_STARTING_POSITIONS`, the 15-cell
corner triangle at the bottom point of the star (each client sees itself as
Player 1 at the bottom, per `src/server/client.rs`). -/
def PLAYER1_STARTING_POSITIONS : List HexIdx :=
  [(16,4),(15,4),(15,5),(14,4),(14,5),(14,6),(13,4),(13,5),(13,6),(13,7),
   (12,4),(12,5),(12,6),(12,7),(12,8)]

/-- Modelled from the spec: `lut::PLAYER2_STARTING_POSITIONS`, the 15-cell
corner triangle at the opposite (top) point of the star. -/
def PLAYER2_STARTING_POSITIONS : List HexIdx :=
  [(0,12),(1,11),(1,12),(2,10),(2,11),(2,12),(3,9),(3,10),(3,11),(3,12),
   (4,8),(4,9),(4,10),(4,11),(4,12)]

/-- Rust `Board::empty` (`src/sterhalma/board/mod.rs`): every cell starts
as `None` and the valid positions are set to `Some(None)`. -/
def Board.empty {α : Type} : Board α :=
  fun idx => if idx ∈ VALID_POSITIONS then some none else none

/-- Rust `PiecePlacementError` (`src/sterhalma/board/mod.rs`). -/
inductive PiecePlacementError where
  | invalidIndex (idx : HexIdx)
  | occupied (idx : HexIdx)
deriving DecidableEq, Repr

/-- Pointwise update of a board cell (Rust mutates through `get_mut`). -/
def updateCell {α : Type} (b : Board α) (i : HexIdx) (v : Position α) : Board α :=
  fun j => if j = i then v else b j

/-- Rust `Board::set_piece` (`src/sterhalma/board/mod.rs`). -/
def Board.set_piece {α : Type} (b : Board α) (idx : HexIdx) (piece : α) :
    Except PiecePlacementError (Board α) :=
  match b idx with
  | none => .error (.invalidIndex idx)
  | some (some _) => .error (.occupied idx)
  | some none => .ok (updateCell b idx (some (some piece)))

/-- Rust `Board::place_pieces` / builder `with_pieces`
(`src/sterhalma/board/mod.rs`). -/
def Board.with_pieces {α : Type} (b : Board α) (indices : List HexIdx) (piece : α) :
    Except PiecePlacementError (Board α) :=
  indices.foldlM (fun bb idx => bb.set_piece idx piece) b

/-- Rust `Board::<Player>::new` (`src/sterhalma/board/player.rs`): the empty
board with both players' pieces in their starting positions; the Rust code
`expect`s the placement to succeed. -/
def Board.new : Board Player :=
  (do
    let b1 ← Board.empty.with_pieces PLAYER1_STARTING_POSITIONS Player.player1
    b1.with_pieces PLAYER2_STARTING_POSITIONS Player.player2 :
      Except PiecePlacementError (Board Player)).toOption.getD Board.empty

/-- Rust `goal_indices` (`src/sterhalma/board/mod.rs` lines 327-333):
a player's goal region is the opponent's starting region. -/
def goal_indices : Player → List HexIdx
  | .player1 => PLAYER2_STARTING_POSITIONS
  | .player2 => PLAYER1_STARTING_POSITIONS

/-- Rust `Board::check_winner` (`src/sterhalma/board/mod.rs` lines
335-344): the first player, in variant order, all of whose goal positions
hold their own pieces. -/
def check_winner (b : Board Player) : Option Player :=
  Player.variants.find? (fun player =>
    (goal_indices player).all (fun idx => decide (b idx = some (some player))))

/-- Rust `Board::score` (`src/sterhalma/board/mod.rs` lines 346-353):
the number of goal positions occupied by the given player. -/
def Board.score (b : Board Player) (player : Player) : Nat :=
  (goal_indices player).countP (fun idx => decide (b idx = some (some player)))

/-- Rust `Board::get_scores` (`src/sterhalma/board/mod.rs`). -/
def Board.get_scores (b : Board Player) : Nat × Nat :=
  (b.score .player1, b.score .player2)

/-- Rust `HexDirection` (`src/sterhalma/board/mod.rs`). -/
inductive HexDirection where
  | NW | NE | W | E | SW | SE
deriving DecidableEq, Repr

/-- Rust `HexDirection::variants()`, in source order. -/
def HexDirection.variants : List HexDirection :=
  [.NW, .NE, .W, .E, .SW, .SE]

/-- Rust `Board::next_nw`: `[i.checked_sub(1)?, j]`, then the cell must be
inside the board (`self[idx].as_ref()?`); returns the index and its
occupancy. -/
def next_nw {α : Type} (b : Board α) (idx : HexIdx) : Option (HexIdx × Option α) :=
  match checkedSub idx.1 1 with
  | none => none
  | some i' =>
    match b (i', idx.2) with
    | none => none
    | some pos => some ((i', idx.2), pos)

/-- Rust `Board::next_ne`: `[i.checked_sub(1)?, (j+1 < 17)?]`. -/
def next_ne {α : Type} (b : Board α) (idx : HexIdx) : Option (HexIdx × Option α) :=
  match checkedSub idx.1 1 with
  | none => none
  | some i' =>
    if idx.2 + 1 < BOARD_LENGTH then
      match b (i', idx.2 + 1) with
      | none => none
      | some pos => some ((i', idx.2 + 1), pos)
    else none

/-- Rust `Board::next_e`: `[i, (j+1 < 17)?]`. -/
def next_e {α : Type} (b : Board α) (idx : HexIdx) : Option (HexIdx × Option α) :=
  if idx.2 + 1 < BOARD_LENGTH then
    match b (idx.1, idx.2 + 1) with
    | none => none
    | some pos => some ((idx.1, idx.2 + 1), pos)
  else none

/-- Rust `Board::next_se`: `[(i+1 < 17)?, j]`. -/
def next_se {α : Type} (b : Board α) (idx : HexIdx) : Option (HexIdx × Option α) :=
  if idx.1 + 1 < BOARD_LENGTH then
    match b (idx.1 + 1, idx.2) with
    | none => none
    | some pos => some ((idx.1 + 1, idx.2), pos)
  else none

/-- Rust `Board::next_sw`: `[(i+1 < 17)?, j.checked_sub(1)?]`. -/
def next_sw {α : Type} (b : Board α) (idx : HexIdx) : Option (HexIdx × Option α) :=
  if idx.1 + 1 < BOARD_LENGTH then
    match checkedSub idx.2 1 with
    | none => none
    | some j' =>
      match b (idx.1 + 1, j') with
      | none => none
      | some pos => some ((idx.1 + 1, j'), pos)
  else none

/-- Rust `Board::next_w`: `[i, j.checked_sub(1)?]`. -/
def next_w {α : Type} (b : Board α) (idx : HexIdx) : Option (HexIdx × Option α) :=
  match checkedSub idx.2 1 with
  | none => none
  | some j' =>
    match b (idx.1, j') with
    | none => none
    | some pos => some ((idx.1, j'), pos)

/-- Rust `Board::nearest_neighbor` (`src/sterhalma/board/mod.rs`). -/
def nearest_neighbor {α : Type} (b : Board α) (idx : HexIdx) :
    HexDirection → Option (HexIdx × Option α)
  | .NW => next_nw b idx
  | .NE => next_ne b idx
  | .W => next_w b idx
  | .E => next_e b idx
  | .SW => next_sw b idx
  | .SE => next_se b idx

/-- Rust `MovementFull` (`src/sterhalma/board/movement.rs`): a single move
to an adjacent cell, or a multi-hop path. -/
inductive MovementFull where
  | move (mfrom mto : HexIdx)
  | hops (path : List HexIdx)
deriving DecidableEq, Repr

/-- Rust `Movement` / `MovementIndices`: the endpoint pair `[from, to]` of
a movement, as stored in the game history and sent on the wire. -/
abbrev MovementIndices := HexIdx × HexIdx

/-- Rust `MovementFull::origin` (`path.first().unwrap()` for hops; the
generator only builds non-empty paths, so the default is never used). -/
def MovementFull.origin : MovementFull → HexIdx
  | .move mfrom _ => mfrom
  | .hops path => path.head?.getD (0, 0)

/-- Rust `MovementFull::destination` (`path.last().unwrap()` for hops). -/
def MovementFull.destination : MovementFull → HexIdx
  | .move _ mto => mto
  | .hops path => path.getLast?.getD (0, 0)

/-- Rust `MovementFull::get_indices` (`src/sterhalma/board/movement.rs`):
start and end indices of a movement. -/
def MovementFull.get_indices (m : MovementFull) : MovementIndices :=
  (m.origin, m.destination)

/-- Rust `Board::available_hops_from` (`src/sterhalma/board/movement.rs`
lines 45-71): all cells reachable by a single hop from `idx` — the nearest
neighbour in some direction is occupied and the next-nearest in the same
direction is valid and empty. -/
def available_hops_from {α : Type} (b : Board α) (idx : HexIdx) : List HexIdx :=
  HexDirection.variants.filterMap fun direction =>
    match nearest_neighbor b idx direction with
    | none => none
    | some (_, none) => none
    | some (nn_idx, some _) =>
      match nearest_neighbor b nn_idx direction with
      | none => none
      | some (_, some _) => none
      | some (nnn_idx, none) => some nnn_idx

/-- Rust `Board::collect_hop_paths_from` (`src/sterhalma/board/movement.rs`
lines 73-95): recursively extend a hop path by every available hop from its
last cell that does not revisit a cell of the path; each extension is
itself a complete movement.  The Rust recursion terminates because paths
never revisit a cell; here the recursion carries an explicit fuel, which is
instantiated with a bound larger than any non-revisiting path. -/
def collect_hop_paths_from {α : Type} (b : Board α) :
    Nat → List HexIdx → List MovementFull
  | 0, _ => []
  | fuel + 1, path =>
    (available_hops_from b (path.getLast?.getD (0, 0))).flatMap
      fun next_hop_idx =>
        if next_hop_idx ∈ path then []
        else
          let next_path := path ++ [next_hop_idx]
          MovementFull.hops next_path :: collect_hop_paths_from b fuel next_path

/-- Rust `Board::available_movements_from` (`src/sterhalma/board/movement.rs`
lines 97-141): for each direction, a single move into an empty neighbour, or
the initial hop over an occupied neighbour plus all its recursive
extensions. -/
def available_movements_from {α : Type} (b : Board α) (fuel : Nat) (idx : HexIdx) :
    List MovementFull :=
  HexDirection.variants.flatMap fun direction =>
    match nearest_neighbor b idx direction with
    | none => []
    | some (nn_idx, none) => [MovementFull.move idx nn_idx]
    | some (nn_idx, some _) =>
      match nearest_neighbor b nn_idx direction with
      | none => []
      | some (_, some _) => []
      | some (nnn_idx, none) =>
        MovementFull.hops [idx, nnn_idx] ::
          collect_hop_paths_from b fuel [idx, nnn_idx]

/-- Rust `Board::iter_player_indices` (`src/sterhalma/board/mod.rs`):
row-major indices of the cells occupied by the given player. -/
def iter_player_indices (b : Board Player) (player : Player) : List HexIdx :=
  allIndices.filter (fun idx => decide (b idx = some (some player)))

/-- Rust `Board::iter_player_movements` (`src/sterhalma/board/movement.rs`
lines 144-152): all movements available to a player. -/
def iter_player_movements (b : Board Player) (player : Player) (fuel : Nat) :
    List MovementFull :=
  (iter_player_indices b player).flatMap (available_movements_from b fuel)

/-- Fuel bound used for the embedded generator: a hop path never revisits a
cell, so no path on the 289-cell lattice exceeds this depth. -/
def HOP_FUEL : Nat := 300

/-- Rust `MovementError` (`src/sterhalma/board/movement.rs`). -/
inductive MovementError where
  | emptyInit
  | invalidIndex (idx : HexIdx)
  | occupied (idx : HexIdx)
  | shortHopping (n : Nat)
deriving DecidableEq, Repr

/-- Rust `Board::apply_movement` (`src/sterhalma/board/movement.rs` lines
248-272; identical code at `src/sterhalma/mod.rs` lines 518-542): take the
piece at `from` (error if invalid or empty), then look at `to`: if `to` is
invalid the error returns with the piece already taken; if `to` is occupied
the piece is put back; otherwise the piece is placed at `to`.  The result
is the final board (Rust mutates in place) paired with `none` on success
or `some` error. -/
def Board.apply_movement {α : Type} (b : Board α) (m : MovementIndices) :
    Board α × Option MovementError :=
  match b m.1 with
  | none => (b, some (.invalidIndex m.1))
  | some none => (b, some .emptyInit)
  | some (some piece) =>
    let b1 := updateCell b m.1 (some none)
    match b1 m.2 with
    | none => (b1, some (.invalidIndex m.2))
    | some (some _) =>
      (updateCell b1 m.1 (some (some piece)), some (.occupied m.2))
    | some none =>
      (updateCell b1 m.2 (some (some piece)), none)

/-- Rust `Board::unsafe_apply_movement` (`src/sterhalma/board/movement.rs`
lines 275-279) / `Board::apply_movement_unchecked` used by
`src/sternhalma/mod.rs`: unconditionally take the piece at `from` and place
it at `to`.  Rust unwraps; the model keeps the taken inner option (`join`),
which agrees with Rust whenever `from` is a valid occupied cell. -/
def board_apply_movement_unchecked {α : Type} (b : Board α) (m : MovementIndices) :
    Board α :=
  let piece : Option α := (b m.1).join
  fun idx => if idx = m.2 then some piece else if idx = m.1 then some none else b idx

/-- Rust `Scores = [usize; PLAYER_COUNT]` (`src/sternhalma/mod.rs`);
entry 0 belongs to `Player1`, entry 1 to `Player2`. -/
abbrev Scores := Nat × Nat

/-- Read a player's entry of the score array (`scores[player as usize]`). -/
def Scores.get (s : Scores) : Player → Nat
  | .player1 => s.1
  | .player2 => s.2

/-- Update a player's entry of the score array in place. -/
def Scores.modify (s : Scores) (player : Player) (f : Nat → Nat) : Scores :=
  match player with
  | .player1 => (f s.1, s.2)
  | .player2 => (s.1, f s.2)

/-- Rust `GameStatus` (`src/sternhalma/mod.rs`). -/
inductive GameStatus where
  | playing (player : Player) (turns : Nat) (scores : Scores)
  | finished (winner : Player) (total_turns : Nat) (scores : Scores)
deriving DecidableEq, Repr

/-- Rust `GameStatus::scores` (`src/sternhalma/mod.rs`). -/
def GameStatus.scores : GameStatus → Scores
  | .playing _ _ s => s
  | .finished _ _ s => s

/-- Rust `GameStatus::turns` (`src/sternhalma/mod.rs`). -/
def GameStatus.turns : GameStatus → Nat
  | .playing _ t _ => t
  | .finished _ t _ => t

/-- Rust `Game` (`src/sternhalma/mod.rs`). -/
structure Game where
  board : Board Player
  status : GameStatus
  history : List MovementIndices

/-- Rust `Game::new` (`src/sternhalma/mod.rs`): fresh board,
`Playing { Player1, 0, [0, 0] }`, empty history. -/
def Game.new : Game :=
  { board := Board.new
    status := .playing .player1 0 (0, 0)
    history := [] }

/-- Rust `Game::next_status` (`src/sternhalma/mod.rs` lines 163-202): a
finished game is absorbing; otherwise decrement the mover's score if the
movement leaves the mover's goal region and increment it if it enters it,
then declare the board's winner (the board has already been updated) or
pass the turn to the opponent.  Rust's `scores[player] -= 1` panics on
underflow in debug builds; `Nat` subtraction is used here and the two agree
whenever the mover actually had a piece on the vacated goal cell. -/
def Game.next_status (g : Game) (movement : MovementIndices) : GameStatus :=
  match g.status with
  | .finished w t s => .finished w t s
  | .playing player turns scores =>
    let goal := goal_indices player
    let scores1 := if movement.1 ∈ goal then scores.modify player (· - 1) else scores
    let scores2 := if movement.2 ∈ goal then scores1.modify player (· + 1) else scores1
    match check_winner g.board with
    | some w => .finished w (turns + 1) scores2
    | none => .playing player.opponent (turns + 1) scores2

/-- Rust `Game::apply_movement_unchecked` (`src/sternhalma/mod.rs` lines
246-259): apply the movement on the board, push it onto the history, then
recompute the status (`next_status` sees the updated board and the old
status). -/
def Game.apply_movement_unchecked (g : Game) (movement : MovementIndices) : Game :=
  let board' := board_apply_movement_unchecked g.board movement
  let g1 : Game := { board := board', status := g.status, history := g.history ++ [movement] }
  { g1 with status := g1.next_status movement }

/-- The game states the coordinator can reach: the initial game, plus one
step for every movement the generator emits for the player to move
(`Server::handle_turn` draws the candidate list from
`Game::iter_available_moves`, which is `Board::iter_player_movements` for
the current player, and applies the chosen movement's endpoint pair via
`Game::apply_movement_unchecked`). -/
inductive Reachable : Game → Prop where
  | init : Reachable Game.new
  | step (g : Game) (player : Player) (turns : Nat) (scores : Scores)
      (mf : MovementFull) :
      Reachable g →
      g.status = .playing player turns scores →
      mf ∈ iter_player_movements g.board player HOP_FUEL →
      Reachable (g.apply_movement_unchecked mf.get_indices)

/-- Rust `REMOTE_MESSAGE_LENGTH` (`src/server/protocol.rs` line 24),
documented as the maximum length of a remote message in bytes. -/
def REMOTE_MESSAGE_LENGTH : Nat := 4 * 1024

/-- Default `max_frame_length` of `tokio_util`'s `LengthDelimitedCodec`
(8 MiB), the codec `ServerCodec::new` constructs with
`LengthDelimitedCodec::new()` (`src/server/protocol.rs` lines 108-114). -/
def DEFAULT_MAX_FRAME_LENGTH : Nat := 8 * 1024 * 1024

/-- The framing layer of `ServerCodec::decode` (`src/server/protocol.rs`
lines 122-138): `self.delegate.decode(src)` with the default
`LengthDelimitedCodec` — read a big-endian 32-bit length `n`, error only if
`n` exceeds the default 8 MiB bound, wait for more bytes if the buffer is
short, otherwise split off the `n`-byte payload (which is then handed to
the CBOR deserializer).  Bytes are modelled as naturals below 256. -/
def length_delimited_decode (src : List Nat) :
    Except String (Option (List Nat × List Nat)) :=
  match src with
  | b0 :: b1 :: b2 :: b3 :: rest =>
    let n := ((b0 * 256 + b1) * 256 + b2) * 256 + b3
    if n > DEFAULT_MAX_FRAME_LENGTH then .error "frame size too big"
    else if rest.length < n then .ok none
    else .ok (some (rest.take n, rest.drop n))
  | _ => .ok none

/-- Rust `ClientRequest` (`src/server/messages.rs`). -/
inductive ClientRequest where
  | disconnect
  | choice (movement_index : Nat)
deriving DecidableEq, Repr

/-- Rust `ClientMessage` (`src/server/messages.rs`). -/
structure ClientMessage where
  player : Player
  request : ClientRequest
deriving DecidableEq, Repr

/-- The coordinator's reply to `MainThreadMessage::RequestFreePlayer`
(`src/server/mod.rs` lines 248-253, identical to lines 113-124): the first
of `[Player1, Player2]` without a live direct channel.  `clients` lists the
keys of the coordinator's `clients_tx` map. -/
def request_free_player (clients : List Player) : Option Player :=
  [Player.player1, Player.player2].find? (fun p => decide (p ∉ clients))

/-- Outcome of handling one message from a client channel inside
`Server::handle_turn`'s receiving loop (`src/server/mod.rs` lines
258-315): either the loop keeps waiting (with possibly updated
client/disconnected bookkeeping and an untouched game), or a movement was
applied and broadcast and the turn returns. -/
inductive TurnStep where
  | keepWaiting (clients disconnected : List Player) (g : Game)
  | applied (clients disconnected : List Player) (g : Game)
      (bcPlayer : Player) (bcMovement : MovementIndices) (bcScores : Scores)
      (ret : GameStatus)

/-- Rust `Server::handle_turn`, client-message arm (`src/server/mod.rs`
lines 258-315): a `Disconnect` removes the player from the client map and
marks it disconnected; a `Choice` from a player other than the current one
is logged and ignored; a `Choice` whose index is not a position of the
candidate list is logged and ignored; otherwise the chosen movement is
applied unchecked and broadcast with the post-apply scores. -/
def handle_client_message (clients disconnected : List Player) (g : Game)
    (movements : List MovementIndices) (current_player : Player)
    (message : ClientMessage) : TurnStep :=
  match message.request with
  | .disconnect =>
    .keepWaiting (clients.erase message.player) (message.player :: disconnected) g
  | .choice movement_index =>
    if message.player ≠ current_player then
      .keepWaiting clients disconnected g
    else
      match movements.get? movement_index with
      | none => .keepWaiting clients disconnected g
      | some movement =>
        let g' := g.apply_movement_unchecked movement
        .applied clients disconnected g' message.player movement
          g'.status.scores g'.status

/-- Rust `RemoteInMessage` (`src/server/protocol.rs`); the session id is an
opaque 128-bit token, modelled as a natural. -/
inductive RemoteInMessage where
  | hello
  | reconnect (session_id : Nat)
  | choice (movement_index : Nat)
deriving DecidableEq, Repr

/-- One event of the remote stream inside `Client::run`'s `select!` loop
(`src/server/client.rs` lines 277-296): a decoded message (`Some(Ok(_))`),
a transport/decode error (`Some(Err(_))`), or end of stream (`None`). -/
inductive RemoteStreamEvent where
  | msg (m : RemoteInMessage)
  | errEvent
  | eof
deriving DecidableEq, Repr

/-- The remote-stream dimension of `Client::run` (`src/server/client.rs`
lines 241-306), as the list of requests the task sends to the coordinator
while consuming a sequence of stream events: a decoded `Choice` is
forwarded as `ClientRequest::Choice`; handshake messages are ignored; a
stream error is logged and the loop `continue`s; end of stream `break`s the
loop, after which the task sends `ClientRequest::Disconnect` (ignoring any
send failure) and closes. -/
def client_run (player : Player) : List RemoteStreamEvent → List ClientMessage
  | [] => []
  | .msg (.choice movement_index) :: rest =>
    ⟨player, .choice movement_index⟩ :: client_run player rest
  | .msg _ :: rest => client_run player rest
  | .errEvent :: rest => client_run player rest
  | .eof :: _ => [⟨player, .disconnect⟩]

/-- Rust `Client::relative_player` (`src/server/client.rs` lines 69-74):
swap player identities when this client is mapped to the internal
`Player2`. -/
def relative_player (self player : Player) : Player :=
  match self with
  | .player1 => player
  | .player2 => player.opponent

/-- Rust `Client::relative_idx` (`src/server/client.rs` lines 81-86):
reflect every coordinate, `c → BOARD_LENGTH - 1 - c`, when this client is
mapped to the internal `Player2`. -/
def relative_idx (self : Player) (idx : HexIdx) : HexIdx :=
  match self with
  | .player1 => idx
  | .player2 => (BOARD_LENGTH - 1 - idx.1, BOARD_LENGTH - 1 - idx.2)

/-- The score swap in `Client::handle_server_broadcast`
(`src/server/client.rs` lines 156-171): a client mapped to `Player2`
receives the two score entries swapped. -/
def client_relative_scores (self : Player) (scores : Scores) : Scores :=
  match self with
  | .player1 => scores
  | .player2 => (scores.2, scores.1)

/-- Witness board for the generator: two Player-1 pieces at `(8, 8)` and
`(8, 9)` on an otherwise empty star. -/
def witnessBoard : Board Player :=
  fun idx =>
    if idx = (8, 8) then some (some .player1)
    else if idx = (8, 9) then some (some .player1)
    else if validCell idx then some none else none

/-- A single legal hop from `a` to `c` on board `b`: in some direction the
nearest neighbour is occupied and the next-nearest cell in the same
direction is `c`, valid and empty (spec §4.1, "hop-reachable"). -/
def hopStep {α : Type} (b : Board α) (a c : HexIdx) : Prop :=
  ∃ d nn piece, nearest_neighbor b a d = some (nn, some piece) ∧
    nearest_neighbor b nn d = some (c, none)

/-- Invariant of the hop paths the generator builds: non-empty, visiting no
cell twice, and every consecutive pair is a single legal hop. -/
def PathOK {α : Type} (b : Board α) (path : List HexIdx) : Prop :=
  path ≠ [] ∧ path.Nodup ∧ path.Chain' (hopStep b)

/-- Player `w`'s goal region is fully occupied by `w`'s pieces. -/
def goalFull (b : Board Player) (w : Player) : Prop :=
  ∀ idx ∈ goal_indices w, b idx = some (some w)

/-- Number of cells of the lattice occupied by the given player. -/
def occupiedCount (b : Board Player) (player : Player) : Nat :=
  allIndices.countP (fun idx => decide (b idx = some (some player)))

/-- The coordinator-reachable game invariant: occupied cells live only on
valid star cells, each player occupies exactly 15 cells, the status scores
agree with the board scores, and a game still `Playing` has no winner on
the board. -/
def GameInv (g : Game) : Prop :=
  (∀ idx, validCell idx = false → g.board idx = none) ∧
  occupiedCount g.board .player1 = 15 ∧
  occupiedCount g.board .player2 = 15 ∧
  g.status.scores = g.board.get_scores ∧
  (∀ player turns scores, g.status = .playing player turns scores →
    check_winner g.board = none)

/-! ## Claim C9: the perspective transform is an involution -/

/-- C9: for a client mapped to the internal `Player2`, applying the
perspective transform twice is the identity: on indices `(r, c)` with
`r, c < 17` (the transform is `(r, c) → (16 - r, 16 - c)`), on player
identities, and on the score pair. -/
theorem perspective_involution (r c : Nat) (hr : r < 17) (hc : c < 17) :
    relative_idx .player2 (relative_idx .player2 (r, c)) = (r, c) ∧
    (∀ p : Player, relative_player .player2 (relative_player .player2 p) = p) ∧
    (∀ s : Scores, client_relative_scores .player2 (client_relative_scores .player2 s) = s) := by
  refine ⟨?_, ?_, ?_⟩
  · simp only [relative_idx, BOARD_LENGTH, Prod.mk.injEq]
    omega
  · intro p; cases p <;> rfl
  · intro s; rfl

/-- Witness for C9 at the concrete index `(3, 5)`. -/
theorem perspective_involution_witness :
    relative_idx .player2 (relative_idx .player2 (3, 5)) = (3, 5) :=
  (perspective_involution 3 5 (by decide) (by decide)).1

/-! ## Claim C8: behaviour of the connection task on stream EOF and error -/

/-- C8 counterexample: the claim says a transport/decode error transitions
the task to draining (sending `ClientRequest::Disconnect`); in the code the
error arm of the `select!` logs and `continue`s, so a stream consisting of
a single error event produces no request at all, while EOF does drain. -/
theorem stream_error_does_not_drain :
    client_run .player1 [.errEvent] = [] ∧
    client_run .player1 [.eof] = [⟨.player1, .disconnect⟩] := by
  constructor <;> rfl

/-- C8 as amended: when the remote stream reaches EOF the task stops
reading, sends `ClientRequest::Disconnect` to the coordinator and closes;
a transport/decode error is logged and the task keeps reading unchanged. -/
theorem client_run_eof_drains (player : Player) (rest : List RemoteStreamEvent) :
    client_run player (.eof :: rest) = [⟨player, .disconnect⟩] ∧
    client_run player (.errEvent :: rest) = client_run player rest := by
  constructor <;> rfl

/-! ## Claim C7: off-turn and out-of-range choices are ignored -/

/-- C7: while the coordinator waits for the current player's choice, a
`Choice` from a different player, or a `Choice` from the current player
whose index is not below the candidate-list length, leaves the game
unmutated, broadcasts nothing, and keeps the turn open (the receiving loop
just continues with unchanged state). -/
theorem offturn_or_outofrange_choice_ignored
    (clients disconnected : List Player) (g : Game)
    (movements : List MovementIndices) (current_player : Player)
    (p : Player) (i : Nat)
    (h : p ≠ current_player ∨ movements.length ≤ i) :
    handle_client_message clients disconnected g movements current_player
      ⟨p, .choice i⟩ = .keepWaiting clients disconnected g := by
  rcases h with h | h
  · simp [handle_client_message, h]
  · rcases eq_or_ne p current_player with rfl | hne
    · simp [handle_client_message, List.getElem?_eq_none h]
    · simp [handle_client_message, hne]

/-- Witness for C7: Player 2 answers while Player 1 holds the turn. -/
theorem offturn_or_outofrange_choice_ignored_witness :
    handle_client_message [.player1, .player2] [] Game.new []
      .player1 ⟨.player2, .choice 0⟩ = .keepWaiting [.player1, .player2] [] Game.new :=
  offturn_or_outofrange_choice_ignored _ _ _ _ _ _ _ (Or.inl (by decide))

/-! ## Claim C6: free-slot requests during play -/

/-- C6 counterexample: the claim says a `RequestFreeSlot` during play is
always answered with none available; but the play-phase handler replies
with the first player missing from the client map, so after Player 1
disconnects mid-game its slot is offered again. -/
theorem free_slot_after_disconnect :
    request_free_player [.player2] = some .player1 := by decide

/-- C6 as amended: during play (as in setup) `RequestFreeSlot` is answered
with the first of `[Player1, Player2]` that has no live direct channel;
the reply is none available exactly when both players are connected. -/
theorem free_slot_iff_both_connected (clients : List Player) :
    request_free_player clients = none ↔
      Player.player1 ∈ clients ∧ Player.player2 ∈ clients := by
  simp [request_free_player, List.find?_eq_none]

/-! ## Basic facts about the lattice and the initial board -/

theorem mem_allIndices {idx : HexIdx} :
    idx ∈ allIndices ↔ idx.1 < 17 ∧ idx.2 < 17 := by
  constructor
  · rintro h
    simp only [allIndices, List.mem_map, List.mem_range, BOARD_LENGTH] at h
    obtain ⟨k, hk, rfl⟩ := h
    constructor <;> [skip; exact Nat.mod_lt _ (by omega)]
    omega
  · rintro ⟨h1, h2⟩
    simp only [allIndices, List.mem_map, List.mem_range, BOARD_LENGTH]
    refine ⟨17 * idx.1 + idx.2, by omega, ?_⟩
    obtain ⟨i, j⟩ := idx
    simp only [Prod.mk.injEq]
    omega

theorem nodup_allIndices : allIndices.Nodup := by
  refine List.Nodup.map ?_ (List.nodup_range _)
  intro a b h
  simp only [Prod.mk.injEq] at h
  omega

theorem validCell_lt {idx : HexIdx} (h : validCell idx = true) :
    idx.1 < 17 ∧ idx.2 < 17 := by
  simp only [validCell, Bool.or_eq_true, Bool.and_eq_true, decide_eq_true_eq] at h
  omega

theorem mem_VALID_POSITIONS {idx : HexIdx} :
    idx ∈ VALID_POSITIONS ↔ validCell idx = true := by
  constructor
  · intro h
    exact (List.mem_filter.mp h).2
  · intro h
    exact List.mem_filter.mpr ⟨mem_allIndices.mpr (validCell_lt h), h⟩

theorem Board.empty_apply {α : Type} (idx : HexIdx) :
    (Board.empty : Board α) idx = if validCell idx then some none else none := by
  simp [Board.empty, mem_VALID_POSITIONS]

@[simp]
theorem updateCell_apply {α : Type} (b : Board α) (i : HexIdx) (v : Position α) (j : HexIdx) :
    updateCell b i v j = if j = i then v else b j := rfl

theorem set_piece_ok {α : Type} {b b' : Board α} {idx : HexIdx} {piece : α}
    (h : b.set_piece idx piece = .ok b') :
    b' = updateCell b idx (some (some piece)) ∧ b idx = some none := by
  unfold Board.set_piece at h
  rcases hb : b idx with _ | p <;> rw [hb] at h
  · exact absurd h (by simp)
  · rcases p with _ | q
    · simp only [Except.ok.injEq] at h
      exact ⟨h.symm, rfl⟩
    · exact absurd h (by simp)

theorem with_pieces_notmem {α : Type} {b b' : Board α} {l : List HexIdx} {piece : α}
    (h : b.with_pieces l piece = .ok b') {idx : HexIdx} (hidx : idx ∉ l) :
    b' idx = b idx := by
  induction l generalizing b with
  | nil =>
    have h' : Except.ok (ε := PiecePlacementError) b = .ok b' := h
    rw [(Except.ok.inj h').symm]
  | cons a l ih =>
    simp only [Board.with_pieces, List.foldlM_cons] at h
    rcases hs : b.set_piece a piece with e | b1 <;> rw [hs] at h
    · have h' : Except.error (α := Board α) e = .ok b' := h
      exact absurd h' (by simp)
    · have h' : Board.with_pieces b1 l piece = .ok b' := h
      obtain ⟨rfl, -⟩ := set_piece_ok hs
      have := ih (b := updateCell b a (some (some piece))) h'
        (List.not_mem_of_not_mem_cons hidx)
      rw [this, updateCell_apply,
        if_neg (by rintro rfl; exact hidx (List.mem_cons_self _ _))]

theorem with_pieces_mem {α : Type} {b b' : Board α} {l : List HexIdx} {piece : α}
    (h : b.with_pieces l piece = .ok b') (hnd : l.Nodup) :
    ∀ idx ∈ l, b' idx = some (some piece) := by
  induction l generalizing b with
  | nil => intro idx h; exact absurd h (by simp)
  | cons a l ih =>
    simp only [Board.with_pieces, List.foldlM_cons] at h
    rcases hs : b.set_piece a piece with e | b1 <;> rw [hs] at h
    · have h' : Except.error (α := Board α) e = .ok b' := h
      exact absurd h' (by simp)
    · replace h : Board.with_pieces b1 l piece = .ok b' := h
      obtain ⟨rfl, -⟩ := set_piece_ok hs
      intro idx hidx
      rcases List.mem_cons.mp hidx with rfl | hmem
      · have : idx ∉ l := (List.nodup_cons.mp hnd).1
        rw [with_pieces_notmem h this, updateCell_apply, if_pos rfl]
      · exact ih h (List.nodup_cons.mp hnd).2 idx hmem

theorem with_pieces_ok {α : Type} {b : Board α} {l : List HexIdx} {piece : α}
    (hempty : ∀ idx ∈ l, b idx = some none) (hnd : l.Nodup) :
    ∃ b', b.with_pieces l piece = .ok b' := by
  induction l generalizing b with
  | nil => exact ⟨b, rfl⟩
  | cons a l ih =>
    have ha : b a = some none := hempty a (List.mem_cons_self _ _)
    have hs : b.set_piece a piece = .ok (updateCell b a (some (some piece))) := by
      unfold Board.set_piece
      rw [ha]
    have hrest : ∀ idx ∈ l, updateCell b a (some (some piece)) idx = some none := by
      intro idx hidx
      rw [updateCell_apply, if_neg (by rintro rfl; exact (List.nodup_cons.mp hnd).1 hidx)]
      exact hempty idx (List.mem_cons_of_mem _ hidx)
    obtain ⟨b', hb'⟩ := ih hrest (List.nodup_cons.mp hnd).2
    refine ⟨b', ?_⟩
    show (a :: l).foldlM (fun bb idx => bb.set_piece idx piece) b = .ok b'
    rw [List.foldlM_cons, hs]
    exact hb'

/-- Pointwise description of the freshly initialized board. -/
theorem board_new_apply (idx : HexIdx) :
    Board.new idx =
      if idx ∈ PLAYER1_STARTING_POSITIONS then some (some Player.player1)
      else if idx ∈ PLAYER2_STARTING_POSITIONS then some (some Player.player2)
      else if validCell idx then some none else none := by
  have hval1 : ∀ x ∈ PLAYER1_STARTING_POSITIONS, (Board.empty : Board Player) x = some none := by
    decide
  have hnd1 : PLAYER1_STARTING_POSITIONS.Nodup := by decide
  have hnd2 : PLAYER2_STARTING_POSITIONS.Nodup := by decide
  have hdisj : ∀ x ∈ PLAYER2_STARTING_POSITIONS, x ∉ PLAYER1_STARTING_POSITIONS := by decide
  have h1ex : ∃ b1, Board.empty.with_pieces PLAYER1_STARTING_POSITIONS Player.player1
      = .ok b1 := with_pieces_ok hval1 hnd1
  obtain ⟨b1, h1⟩ := h1ex
  have hval2 : ∀ x ∈ PLAYER2_STARTING_POSITIONS, b1 x = some none := by
    intro x hx
    rw [with_pieces_notmem h1 (hdisj x hx)]
    revert hx
    revert x
    decide
  have h2ex : ∃ b2, b1.with_pieces PLAYER2_STARTING_POSITIONS Player.player2
      = .ok b2 := with_pieces_ok hval2 hnd2
  obtain ⟨b2, h2⟩ := h2ex
  have hnew : Board.new = b2 := by
    unfold Board.new
    rw [show (do
        let b1 ← Board.empty.with_pieces PLAYER1_STARTING_POSITIONS Player.player1
        b1.with_pieces PLAYER2_STARTING_POSITIONS Player.player2 :
          Except PiecePlacementError (Board Player)) = .ok b2 by
      rw [show (do
          let b1 ← Board.empty.with_pieces PLAYER1_STARTING_POSITIONS Player.player1
          b1.with_pieces PLAYER2_STARTING_POSITIONS Player.player2 :
            Except PiecePlacementError (Board Player)) =
          Board.empty.with_pieces PLAYER1_STARTING_POSITIONS Player.player1 >>= fun b1 =>
            b1.with_pieces PLAYER2_STARTING_POSITIONS Player.player2 from rfl, h1]
      exact h2]
    rfl
  rw [hnew]
  by_cases hp1 : idx ∈ PLAYER1_STARTING_POSITIONS
  · rw [if_pos hp1, with_pieces_notmem h2 (fun hx => hdisj idx hx hp1),
      with_pieces_mem h1 hnd1 idx hp1]
  · rw [if_neg hp1]
    by_cases hp2 : idx ∈ PLAYER2_STARTING_POSITIONS
    · rw [if_pos hp2, with_pieces_mem h2 hnd2 idx hp2]
    · rw [if_neg hp2, with_pieces_notmem h2 hp2, with_pieces_notmem h1 hp1,
        Board.empty_apply]

/-! ## Claim C1: frame-length enforcement in the wire codec -/

/-- C1 evidence: the framing layer `ServerCodec` actually runs is the
default `LengthDelimitedCodec`, whose only bound is 8 MiB.  A frame
announcing `L = 5000 > 4096` is accepted and its payload handed on to the
deserializer — it is not rejected — and a frame announcing `L = 0` is
likewise accepted, yielding an empty payload.  `REMOTE_MESSAGE_LENGTH` is
never applied to the codec. -/
theorem oversize_and_empty_frames_accepted :
    length_delimited_decode (0 :: 0 :: 19 :: 136 :: List.replicate 5000 0) =
      .ok (some (List.replicate 5000 0, [])) ∧
    5000 > REMOTE_MESSAGE_LENGTH ∧
    length_delimited_decode [0, 0, 0, 0] = .ok (some ([], [])) := by
  refine ⟨?_, by decide, rfl⟩
  show (if 5000 > DEFAULT_MAX_FRAME_LENGTH then
      (.error "frame size too big" : Except String (Option (List Nat × List Nat)))
    else if (List.replicate 5000 (0 : Nat)).length < 5000 then .ok none
    else .ok (some ((List.replicate 5000 (0 : Nat)).take 5000,
      (List.replicate 5000 (0 : Nat)).drop 5000))) =
    .ok (some (List.replicate 5000 0, []))
  rw [if_neg (by decide), List.length_replicate, if_neg (by omega),
    List.take_replicate, List.drop_replicate, Nat.min_self, Nat.sub_self]
  rfl

/-! ## Claim C10: atomicity of the checked `Board::apply_movement` -/

/-- C10 counterexample: with a valid occupied origin and an invalid target
index, `apply_movement` returns `Err(InvalidIndex(to))` but has already
taken the piece — the origin cell is left empty, so the board is *not*
"left exactly as it was" on this error. -/
theorem apply_movement_not_atomic :
    (Board.new.apply_movement ((16, 4), (0, 0))).2 = some (.invalidIndex (0, 0)) ∧
    (Board.new.apply_movement ((16, 4), (0, 0))).1 (16, 4) = some none ∧
    Board.new (16, 4) = some (some .player1) := by
  refine ⟨by decide, by decide, by decide⟩

/-- C10 as amended: `apply_movement` succeeds exactly when the origin is a
valid occupied cell and the target is a valid empty cell or equal to the
origin; on success the piece moves (a no-op when `to = from`) and every
other cell is unchanged; the errors `EmptyInit`, `InvalidIndex(from)` and
`Occupied(to)` (target occupied, distinct from the origin) leave the board
exactly as it was; but when the origin is valid and occupied and the target
index is invalid, the call returns `Err(InvalidIndex(to))` with the piece
already removed from the origin. -/
theorem apply_movement_characterization {α : Type} (b : Board α) (mf mt : HexIdx) :
    ((b.apply_movement (mf, mt)).2 = none ↔
      (∃ piece, b mf = some (some piece)) ∧ (b mt = some none ∨ mt = mf)) ∧
    (∀ piece, b mf = some (some piece) → b mt = some none → mt ≠ mf →
      (b.apply_movement (mf, mt)).2 = none ∧
      (b.apply_movement (mf, mt)).1 mf = some none ∧
      (b.apply_movement (mf, mt)).1 mt = some (some piece) ∧
      ∀ idx, idx ≠ mf → idx ≠ mt → (b.apply_movement (mf, mt)).1 idx = b idx) ∧
    (∀ piece, b mf = some (some piece) → mt = mf →
      (b.apply_movement (mf, mt)).2 = none ∧
      ∀ idx, (b.apply_movement (mf, mt)).1 idx = b idx) ∧
    (b mf = none → b.apply_movement (mf, mt) = (b, some (.invalidIndex mf))) ∧
    (b mf = some none → b.apply_movement (mf, mt) = (b, some .emptyInit)) ∧
    (∀ piece piece', b mf = some (some piece) → b mt = some (some piece') → mt ≠ mf →
      (b.apply_movement (mf, mt)).2 = some (.occupied mt) ∧
      ∀ idx, (b.apply_movement (mf, mt)).1 idx = b idx) ∧
    (∀ piece, b mf = some (some piece) → b mt = none →
      (b.apply_movement (mf, mt)).2 = some (.invalidIndex mt) ∧
      (b.apply_movement (mf, mt)).1 mf = some none ∧
      ∀ idx, idx ≠ mf → (b.apply_movement (mf, mt)).1 idx = b idx) := by
  refine ⟨?_, ?_, ?_, ?_, ?_, ?_, ?_⟩
  · constructor
    · intro hok
      rcases hf : b mf with _ | pf
      · simp only [Board.apply_movement, hf] at hok
        exact absurd hok (by simp)
      rcases pf with _ | piece
      · simp only [Board.apply_movement, hf] at hok
        exact absurd hok (by simp)
      refine ⟨⟨piece, rfl⟩, ?_⟩
      rcases eq_or_ne mt mf with rfl | hne
      · exact Or.inr rfl
      rcases ht : b mt with _ | pt
      · simp only [Board.apply_movement, hf, updateCell_apply, if_neg hne, ht] at hok
        exact absurd hok (by simp)
      rcases pt with _ | q
      · exact Or.inl rfl
      · simp only [Board.apply_movement, hf, updateCell_apply, if_neg hne, ht] at hok
        exact absurd hok (by simp)
    · rintro ⟨⟨piece, hf⟩, hto⟩
      rcases eq_or_ne mt mf with rfl | hne
      · simp [Board.apply_movement, hf]
      rcases hto with hto | rfl
      · simp [Board.apply_movement, hf, updateCell_apply, hne, hto]
      · exact absurd rfl hne
  · intro piece hf ht hne
    have hne' : mf ≠ mt := Ne.symm hne
    refine ⟨?_, ?_, ?_, fun idx h1 h2 => ?_⟩
    · simp [Board.apply_movement, hf, ht, updateCell_apply, hne]
    · simp [Board.apply_movement, hf, ht, updateCell_apply, hne, hne']
    · simp [Board.apply_movement, hf, ht, updateCell_apply, hne]
    · simp [Board.apply_movement, hf, ht, updateCell_apply, hne, h1, h2]
  · rintro piece hf rfl
    refine ⟨?_, fun idx => ?_⟩
    · simp [Board.apply_movement, hf, updateCell_apply]
    · rcases eq_or_ne idx mt with rfl | hni
      · simp [Board.apply_movement, hf, updateCell_apply]
      · simp [Board.apply_movement, hf, updateCell_apply, hni]
  · intro hf
    simp only [Board.apply_movement, hf]
  · intro hf
    simp only [Board.apply_movement, hf]
  · intro piece piece' hf ht hne
    refine ⟨?_, fun idx => ?_⟩
    · simp [Board.apply_movement, hf, ht, updateCell_apply, hne]
    · rcases eq_or_ne idx mf with rfl | hni
      · simp [Board.apply_movement, hf, ht, updateCell_apply, hne]
      · simp [Board.apply_movement, hf, ht, updateCell_apply, hne, hni]
  · intro piece hf ht
    have hne : mt ≠ mf := by rintro rfl; rw [hf] at ht; exact absurd ht (by simp)
    refine ⟨?_, ?_, fun idx hni => ?_⟩
    · simp [Board.apply_movement, hf, ht, updateCell_apply, hne]
    · simp [Board.apply_movement, hf, ht, updateCell_apply, hne]
    · simp [Board.apply_movement, hf, ht, updateCell_apply, hne, hni]

/-- Witness for C10 (amended): moving the piece at `(16, 4)` to the empty
cell `(11, 9)` on the fresh board succeeds and moves exactly that piece. -/
theorem apply_movement_characterization_witness :
    (Board.new.apply_movement ((16, 4), (11, 9))).1 (16, 4) = some none ∧
    (Board.new.apply_movement ((16, 4), (11, 9))).1 (11, 9) = some (some .player1) :=
  have h := (apply_movement_characterization Board.new (16, 4) (11, 9)).2.1
    Player.player1 (by decide) (by decide) (by decide)
  ⟨h.2.1, h.2.2.1⟩

/-! ## Soundness of the movement generator -/

theorem checkedSub_some {n k m : Nat} (h : checkedSub n k = some m) :
    k ≤ n ∧ m = n - k := by
  unfold checkedSub at h
  split at h
  · exact ⟨by assumption, (Option.some.inj h).symm⟩
  · exact absurd h (by simp)


theorem next_nw_eq {α : Type} {b : Board α} {x y : HexIdx} {v : Option α}
    (h : next_nw b x = some (y, v)) :
    1 ≤ x.1 ∧ y = (x.1 - 1, x.2) ∧ b y = some v := by
  unfold next_nw at h
  split at h
  · exact absurd h (by simp)
  · rename_i i' hcs
    split at h
    · exact absurd h (by simp)
    · rename_i pos hb
      obtain ⟨hle, rfl⟩ := checkedSub_some hcs
      simp only [Option.some.injEq, Prod.mk.injEq] at h
      obtain ⟨rfl, rfl⟩ := h
      exact ⟨hle, rfl, hb⟩

theorem next_ne_eq {α : Type} {b : Board α} {x y : HexIdx} {v : Option α}
    (h : next_ne b x = some (y, v)) :
    1 ≤ x.1 ∧ x.2 + 1 < 17 ∧ y = (x.1 - 1, x.2 + 1) ∧ b y = some v := by
  unfold next_ne at h
  split at h
  · exact absurd h (by simp)
  · rename_i i' hcs
    split at h
    · rename_i hlt
      split at h
      · exact absurd h (by simp)
      · rename_i pos hb
        obtain ⟨hle, rfl⟩ := checkedSub_some hcs
        simp only [Option.some.injEq, Prod.mk.injEq] at h
        obtain ⟨rfl, rfl⟩ := h
        exact ⟨hle, hlt, rfl, hb⟩
    · exact absurd h (by simp)

theorem next_w_eq {α : Type} {b : Board α} {x y : HexIdx} {v : Option α}
    (h : next_w b x = some (y, v)) :
    1 ≤ x.2 ∧ y = (x.1, x.2 - 1) ∧ b y = some v := by
  unfold next_w at h
  split at h
  · exact absurd h (by simp)
  · rename_i j' hcs
    split at h
    · exact absurd h (by simp)
    · rename_i pos hb
      obtain ⟨hle, rfl⟩ := checkedSub_some hcs
      simp only [Option.some.injEq, Prod.mk.injEq] at h
      obtain ⟨rfl, rfl⟩ := h
      exact ⟨hle, rfl, hb⟩

theorem next_e_eq {α : Type} {b : Board α} {x y : HexIdx} {v : Option α}
    (h : next_e b x = some (y, v)) :
    x.2 + 1 < 17 ∧ y = (x.1, x.2 + 1) ∧ b y = some v := by
  unfold next_e at h
  split at h
  · rename_i hlt
    split at h
    · exact absurd h (by simp)
    · rename_i pos hb
      simp only [Option.some.injEq, Prod.mk.injEq] at h
      obtain ⟨rfl, rfl⟩ := h
      exact ⟨hlt, rfl, hb⟩
  · exact absurd h (by simp)

theorem next_sw_eq {α : Type} {b : Board α} {x y : HexIdx} {v : Option α}
    (h : next_sw b x = some (y, v)) :
    x.1 + 1 < 17 ∧ 1 ≤ x.2 ∧ y = (x.1 + 1, x.2 - 1) ∧ b y = some v := by
  unfold next_sw at h
  split at h
  · rename_i hlt
    split at h
    · exact absurd h (by simp)
    · rename_i j' hcs
      split at h
      · exact absurd h (by simp)
      · rename_i pos hb
        obtain ⟨hle, rfl⟩ := checkedSub_some hcs
        simp only [Option.some.injEq, Prod.mk.injEq] at h
        obtain ⟨rfl, rfl⟩ := h
        exact ⟨hlt, hle, rfl, hb⟩
  · exact absurd h (by simp)

theorem next_se_eq {α : Type} {b : Board α} {x y : HexIdx} {v : Option α}
    (h : next_se b x = some (y, v)) :
    x.1 + 1 < 17 ∧ y = (x.1 + 1, x.2) ∧ b y = some v := by
  unfold next_se at h
  split at h
  · rename_i hlt
    split at h
    · exact absurd h (by simp)
    · rename_i pos hb
      simp only [Option.some.injEq, Prod.mk.injEq] at h
      obtain ⟨rfl, rfl⟩ := h
      exact ⟨hlt, rfl, hb⟩
  · exact absurd h (by simp)

/-- A successful neighbour lookup returns the neighbour's cell content, and
the neighbour differs from the queried index. -/
theorem nearest_neighbor_spec {α : Type} {b : Board α} {x y : HexIdx}
    {v : Option α} {d : HexDirection}
    (h : nearest_neighbor b x d = some (y, v)) : b y = some v ∧ y ≠ x := by
  cases d
  case NW =>
    obtain ⟨h1, rfl, hb⟩ := next_nw_eq h
    exact ⟨hb, fun heq => by have := congrArg Prod.fst heq; simp at this <;> omega⟩
  case NE =>
    obtain ⟨h1, h2, rfl, hb⟩ := next_ne_eq h
    exact ⟨hb, fun heq => by have := congrArg Prod.fst heq; simp at this <;> omega⟩
  case W =>
    obtain ⟨h1, rfl, hb⟩ := next_w_eq h
    exact ⟨hb, fun heq => by have := congrArg Prod.snd heq; simp at this <;> omega⟩
  case E =>
    obtain ⟨h1, rfl, hb⟩ := next_e_eq h
    exact ⟨hb, fun heq => by have := congrArg Prod.snd heq; simp at this <;> omega⟩
  case SW =>
    obtain ⟨h1, h2, rfl, hb⟩ := next_sw_eq h
    exact ⟨hb, fun heq => by have := congrArg Prod.fst heq; simp at this <;> omega⟩
  case SE =>
    obtain ⟨h1, rfl, hb⟩ := next_se_eq h
    exact ⟨hb, fun heq => by have := congrArg Prod.fst heq; simp at this <;> omega⟩

/-- Two consecutive neighbour steps in the same direction land two cells
away from the start, never back on it. -/
theorem nearest_neighbor_twice_ne {α : Type} {b : Board α} {x y z : HexIdx}
    {vy vz : Option α} {d : HexDirection}
    (h1 : nearest_neighbor b x d = some (y, vy))
    (h2 : nearest_neighbor b y d = some (z, vz)) : z ≠ x := by
  cases d
  case NW =>
    obtain ⟨ha, rfl, -⟩ := next_nw_eq h1
    obtain ⟨hb, rfl, -⟩ := next_nw_eq h2
    intro heq
    have := congrArg Prod.fst heq
    simp at this <;> omega
  case NE =>
    obtain ⟨ha, ha2, rfl, -⟩ := next_ne_eq h1
    obtain ⟨hb, hb2, rfl, -⟩ := next_ne_eq h2
    intro heq
    have := congrArg Prod.fst heq
    simp at this <;> omega
  case W =>
    obtain ⟨ha, rfl, -⟩ := next_w_eq h1
    obtain ⟨hb, rfl, -⟩ := next_w_eq h2
    intro heq
    have := congrArg Prod.snd heq
    simp at this <;> omega
  case E =>
    obtain ⟨ha, rfl, -⟩ := next_e_eq h1
    obtain ⟨hb, rfl, -⟩ := next_e_eq h2
    intro heq
    have := congrArg Prod.snd heq
    simp at this <;> omega
  case SW =>
    obtain ⟨ha, ha2, rfl, -⟩ := next_sw_eq h1
    obtain ⟨hb, hb2, rfl, -⟩ := next_sw_eq h2
    intro heq
    have := congrArg Prod.fst heq
    simp at this <;> omega
  case SE =>
    obtain ⟨ha, rfl, -⟩ := next_se_eq h1
    obtain ⟨hb, rfl, -⟩ := next_se_eq h2
    intro heq
    have := congrArg Prod.fst heq
    simp at this <;> omega

/-- A hop target is a valid empty cell. -/
theorem hopStep_empty {α : Type} {b : Board α} {a c : HexIdx}
    (h : hopStep b a c) : b c = some none := by
  obtain ⟨d, nn, piece, h1, h2⟩ := h
  exact (nearest_neighbor_spec h2).1

/-- Every index produced by `available_hops_from` is a legal single hop. -/
theorem mem_available_hops {α : Type} {b : Board α} {a c : HexIdx}
    (h : c ∈ available_hops_from b a) : hopStep b a c := by
  simp only [available_hops_from, List.mem_filterMap] at h
  obtain ⟨d, -, hd⟩ := h
  split at hd
  · exact absurd hd (by simp)
  · exact absurd hd (by simp)
  · rename_i nn_idx piece h1
    split at hd
    · exact absurd hd (by simp)
    · exact absurd hd (by simp)
    · rename_i nnn_idx h2
      obtain rfl := Option.some.inj hd
      exact ⟨d, nn_idx, piece, h1, h2⟩

/-- Every element of a hop chain after the head is a valid empty cell. -/
theorem chain_tail_empty {α : Type} {b : Board α} :
    ∀ {l : List HexIdx}, l.Chain' (hopStep b) → ∀ x ∈ l.tail, b x = some none := by
  intro l
  induction l with
  | nil => intro _ x hx; exact absurd hx (by simp)
  | cons a t ih =>
    intro hc x hx
    rcases t with _ | ⟨c, t'⟩
    · exact absurd hx (by simp)
    · rw [List.chain'_cons] at hc
      rcases List.mem_cons.mp hx with rfl | hx'
      · exact hopStep_empty hc.1
      · exact ih hc.2 x hx'

/-- The last element of a list with at least two elements lies in its tail. -/
theorem getLast?_mem_tail {l : List HexIdx} (h : 2 ≤ l.length) :
    ∃ x, l.getLast? = some x ∧ x ∈ l.tail := by
  rcases l with _ | ⟨a, t⟩
  · simp at h
  rcases t with _ | ⟨c, t'⟩
  · simp at h
  refine ⟨(c :: t').getLast (by simp), ?_, ?_⟩
  · rw [List.getLast?_cons_cons, List.getLast?_eq_getLast_of_ne_nil]
  · exact List.getLast_mem _

/-- Soundness of the recursive hop-path collection: starting from a good
path it only emits hop movements over strictly longer good paths with the
same origin. -/
theorem collect_hop_paths_sound {α : Type} {b : Board α} :
    ∀ (fuel : Nat) (path : List HexIdx) (m : MovementFull),
      PathOK b path → m ∈ collect_hop_paths_from b fuel path →
      ∃ p', m = .hops p' ∧ PathOK b p' ∧ p'.head? = path.head? ∧
        path.length < p'.length := by
  intro fuel
  induction fuel with
  | zero => intro path m _ hm; exact absurd hm (by simp [collect_hop_paths_from])
  | succ fuel ih =>
    intro path m hok hm
    obtain ⟨hne, hnd, hchain⟩ := hok
    simp only [collect_hop_paths_from, List.mem_flatMap] at hm
    obtain ⟨next, hnext, hm⟩ := hm
    rw [List.getLast?_eq_getLast_of_ne_nil hne] at hnext
    simp only [Option.getD_some] at hnext
    split at hm
    · exact absurd hm (by simp)
    · rename_i hnotmem
      have hhop : hopStep b (path.getLast hne) next := mem_available_hops hnext
      have hok' : PathOK b (path ++ [next]) := by
        refine ⟨by simp, ?_, ?_⟩
        · rw [List.nodup_append]
          refine ⟨hnd, List.nodup_singleton _, fun x hx hy => ?_⟩
          rw [List.mem_singleton.mp hy] at hx
          exact hnotmem hx
        · rw [List.chain'_append]
          refine ⟨hchain, List.chain'_singleton _, fun x hx y hy => ?_⟩
          rw [List.getLast?_eq_getLast_of_ne_nil hne] at hx
          rw [Option.mem_def, Option.some.injEq] at hx
          rw [List.head?_cons, Option.mem_def, Option.some.injEq] at hy
          rw [← hx, ← hy]
          exact hhop
      have hhead : (path ++ [next]).head? = path.head? :=
        List.head?_append_of_ne_nil _ hne
      rcases List.mem_cons.mp hm with rfl | hm'
      · exact ⟨path ++ [next], rfl, hok', hhead, by simp⟩
      · obtain ⟨p', hp1, hp2, hp3, hp4⟩ := ih (path ++ [next]) m hok' hm'
        refine ⟨p', hp1, hp2, by rw [hp3, hhead], ?_⟩
        have : (path ++ [next]).length = path.length + 1 := by simp
        omega

/-- Soundness of `available_movements_from`: every emitted movement is
either a single move into a valid empty neighbour, or a hop chain that is
non-empty, acyclic, hop-connected, and starts at `idx`. -/
theorem available_movements_from_sound {α : Type} {b : Board α} {fuel : Nat}
    {idx : HexIdx} {m : MovementFull}
    (hm : m ∈ available_movements_from b fuel idx) :
    (∃ nn, m = .move idx nn ∧ b nn = some none ∧ nn ≠ idx) ∨
    (∃ p', m = .hops p' ∧ PathOK b p' ∧ p'.head? = some idx ∧ 2 ≤ p'.length) := by
  simp only [available_movements_from, List.mem_flatMap] at hm
  obtain ⟨d, -, hd⟩ := hm
  split at hd
  · exact absurd hd (by simp)
  · rename_i nn_idx h1
    rw [List.mem_singleton.mp hd]
    exact Or.inl ⟨nn_idx, rfl, (nearest_neighbor_spec h1).1, (nearest_neighbor_spec h1).2⟩
  · rename_i nn_idx piece h1
    split at hd
    · exact absurd hd (by simp)
    · exact absurd hd (by simp)
    · rename_i nnn_idx h2
      have hok0 : PathOK b [idx, nnn_idx] := by
        refine ⟨by simp, ?_, ?_⟩
        · have hne2 : idx ≠ nnn_idx := Ne.symm (nearest_neighbor_twice_ne h1 h2)
          simp [List.nodup_cons, hne2]
        · rw [List.chain'_cons]
          exact ⟨⟨d, nn_idx, piece, h1, h2⟩, List.chain'_singleton _⟩
      rcases List.mem_cons.mp hd with rfl | hd'
      · exact Or.inr ⟨[idx, nnn_idx], rfl, hok0, rfl, by simp⟩
      · obtain ⟨p', hp1, hp2, hp3, hp4⟩ := collect_hop_paths_sound fuel _ m hok0 hd'
        refine Or.inr ⟨p', hp1, hp2, by rw [hp3]; rfl, ?_⟩
        simp only [List.length_cons, List.length_singleton] at hp4
        omega

/-! ## Claim C5: soundness of the movement generator -/

/-- C5: every movement the generator emits for player `P`
(`iter_player_movements` / `available_movements_from`) starts on a cell
occupied by `P`, ends on a valid empty cell distinct from the origin, and —
for hop chains — has a path whose consecutive pairs are each a straight-line
two-step hop over an occupied neighbour landing on a valid empty cell, with
no cell appearing twice. -/
theorem generator_soundness (b : Board Player) (player : Player) (fuel : Nat)
    (m : MovementFull) (hm : m ∈ iter_player_movements b player fuel) :
    b m.origin = some (some player) ∧
    b m.destination = some none ∧
    m.destination ≠ m.origin ∧
    (∀ path, m = .hops path →
      path.Nodup ∧ path.Chain' (hopStep b) ∧ path.head? = some m.origin) := by
  simp only [iter_player_movements, List.mem_flatMap] at hm
  obtain ⟨idx, hidx, hm⟩ := hm
  have hocc : b idx = some (some player) := by
    simp only [iter_player_indices, List.mem_filter, decide_eq_true_eq] at hidx
    exact hidx.2
  rcases available_movements_from_sound hm with ⟨nn, rfl, hnn, hne⟩ | ⟨p', rfl, hok, hhead, hlen⟩
  · exact ⟨hocc, hnn, hne, fun path hpath => by cases hpath⟩
  · obtain ⟨-, hnd, hchain⟩ := hok
    have horigin : (MovementFull.hops p').origin = idx := by
      simp [MovementFull.origin, hhead]
    obtain ⟨lastx, hlast, hlasttail⟩ := getLast?_mem_tail hlen
    have hdest : (MovementFull.hops p').destination = lastx := by
      simp [MovementFull.destination, hlast]
    refine ⟨horigin ▸ hocc, ?_, ?_, ?_⟩
    · rw [hdest]
      exact chain_tail_empty hchain lastx hlasttail
    · rw [hdest, horigin]
      intro heq
      rcases p' with _ | ⟨a, t⟩
      · simp at hhead
      · have ha : a = idx := by
          rw [List.head?_cons, Option.some.injEq] at hhead
          exact hhead
        have : lastx ∈ t := by simpa using hlasttail
        rw [heq, ← ha] at this
        exact (List.nodup_cons.mp hnd).1 this
    · intro path hpath
      obtain rfl := (MovementFull.hops.injEq _ _).mp hpath
      exact ⟨hnd, hchain, by rw [horigin, hhead]⟩

/-- Witness for C5: the first movement generated on `witnessBoard` for
Player 1 is the step `(8, 8) → (7, 8)`, and the theorem yields its
soundness facts. -/
theorem generator_soundness_witness :
    MovementFull.move (8, 8) (7, 8) ∈
      iter_player_movements witnessBoard .player1 HOP_FUEL ∧
    witnessBoard (MovementFull.move (8, 8) (7, 8)).origin = some (some .player1) ∧
    witnessBoard (MovementFull.move (8, 8) (7, 8)).destination = some none :=
  have hmem : MovementFull.move (8, 8) (7, 8) ∈
      iter_player_movements witnessBoard .player1 HOP_FUEL := by decide
  have h := generator_soundness witnessBoard .player1 HOP_FUEL _ hmem
  ⟨hmem, h.1, h.2.1⟩

/-! ## Counting under a movement -/

theorem countP_two_point (g g' : HexIdx → Bool) (f t : HexIdx) (hft : f ≠ t)
    (hfv : g' f = false) (htv : g t = false) (hsw : g' t = g f) :
    ∀ (l : List HexIdx), l.Nodup →
    (∀ x ∈ l, x ≠ f → x ≠ t → g' x = g x) →
    l.countP g' + (if f ∈ l then if g f then 1 else 0 else 0)
      = l.countP g + (if t ∈ l then if g f then 1 else 0 else 0) := by
  intro l
  induction l with
  | nil => simp
  | cons x l ih =>
    intro hnd hagree
    obtain ⟨hx_notmem, hnd'⟩ := List.nodup_cons.mp hnd
    have ih' := ih hnd' (fun y hy => hagree y (List.mem_cons_of_mem _ hy))
    rw [List.countP_cons, List.countP_cons]
    rcases eq_or_ne x f with heq | hxf
    · replace heq := heq.symm
      subst heq
      have hfl : f ∉ l := hx_notmem
      have htx : t ∈ f :: l ↔ t ∈ l := by
        simp [List.mem_cons, Ne.symm hft]
      rw [if_pos (List.mem_cons_self _ _), hfv]
      simp only [htx]
      rw [if_neg hfl] at ih'
      by_cases hgf : g f <;> by_cases htl : t ∈ l <;>
        simp [hgf, htl] at ih' ⊢ <;> omega
    · rcases eq_or_ne x t with heq | hxt
      · replace heq := heq.symm
        subst heq
        have htl : t ∉ l := hx_notmem
        have hfx : f ∈ t :: l ↔ f ∈ l := by
          simp [List.mem_cons, hft]
        rw [htv, hsw, if_pos (List.mem_cons_self _ _)]
        simp only [hfx]
        rw [if_neg htl] at ih'
        by_cases hgf : g f <;> by_cases hfl : f ∈ l <;>
          simp [hgf, hfl] at ih' ⊢ <;> omega
      · have hgx : g' x = g x := hagree x (List.mem_cons_self _ _) hxf hxt
        have hfx : f ∈ x :: l ↔ f ∈ l := by simp [List.mem_cons, Ne.symm hxf]
        have htx : t ∈ x :: l ↔ t ∈ l := by simp [List.mem_cons, Ne.symm hxt]
        rw [hgx]
        simp only [hfx, htx]
        by_cases hgixv : g x <;> by_cases hgf : g f <;>
          by_cases hfl : f ∈ l <;> by_cases htl : t ∈ l <;>
          simp [hgixv, hgf, hfl, htl] at ih' ⊢ <;> omega

/-- Pointwise view of the unchecked movement application when the origin
holds a piece. -/
theorem board_apply_unchecked_apply {α : Type} {b : Board α} {f t : HexIdx} {q : α}
    (hf : b f = some (some q)) (y : HexIdx) :
    board_apply_movement_unchecked b (f, t) y
      = if y = t then some (some q) else if y = f then some none else b y := by
  show (if y = t then some ((b f).join) else if y = f then some none else b y) = _
  rw [hf]
  rfl

/-- Moving a piece of `q` from `f` to an empty `t` changes every occupancy
count by the difference of the two correction terms. -/
theorem countP_apply_unchecked {b : Board Player} {q : Player} {f t : HexIdx}
    (hft : f ≠ t) (hf : b f = some (some q)) (ht : b t = some none)
    (p : Player) (l : List HexIdx) (hnd : l.Nodup) :
    l.countP (fun x =>
        decide (board_apply_movement_unchecked b (f, t) x = some (some p)))
      + (if f ∈ l then if p = q then 1 else 0 else 0)
    = l.countP (fun x => decide (b x = some (some p)))
      + (if t ∈ l then if p = q then 1 else 0 else 0) := by
  have hfv : (fun x =>
      decide (board_apply_movement_unchecked b (f, t) x = some (some p))) f = false := by
    simp only
    rw [board_apply_unchecked_apply hf f, if_neg hft, if_pos rfl]
    simp
  have htv : (fun x => decide (b x = some (some p))) t = false := by
    simp only
    rw [ht]
    simp
  have hsw : (fun x =>
      decide (board_apply_movement_unchecked b (f, t) x = some (some p))) t
      = (fun x => decide (b x = some (some p))) f := by
    simp only
    rw [board_apply_unchecked_apply hf t, if_pos rfl, hf]
  have hagree : ∀ x ∈ l, x ≠ f → x ≠ t →
      (fun x => decide (board_apply_movement_unchecked b (f, t) x = some (some p))) x
      = (fun x => decide (b x = some (some p))) x := by
    intro x hx hxf hxt
    simp only
    rw [board_apply_unchecked_apply hf x, if_neg hxt, if_neg hxf]
  have h := countP_two_point _ _ f t hft hfv htv hsw l hnd hagree
  simp only at h
  have hgf : (decide (b f = some (some p))) = decide (p = q) := by
    rw [hf]
    simp [eq_comm]
  rw [hgf] at h
  by_cases hpq : p = q <;> simp [hpq] at h ⊢ <;> omega

/-! ## Score and win-detection lemmas -/

theorem goal_indices_nodup (p : Player) : (goal_indices p).Nodup := by
  cases p <;> decide

theorem goal_indices_length (p : Player) : (goal_indices p).length = 15 := by
  cases p <;> decide

theorem opponent_ne (p : Player) : p.opponent ≠ p := by
  cases p <;> decide

/-- The mover's score changes exactly by the goal-membership corrections of
the two endpoints. -/
theorem score_move_mover {b : Board Player} {q : Player} {f t : HexIdx}
    (hft : f ≠ t) (hf : b f = some (some q)) (ht : b t = some none) :
    (board_apply_movement_unchecked b (f, t)).score q
        + (if f ∈ goal_indices q then 1 else 0)
      = b.score q + (if t ∈ goal_indices q then 1 else 0) := by
  have h := countP_apply_unchecked hft hf ht q (goal_indices q) (goal_indices_nodup q)
  simpa [Board.score] using h

/-- The opponent's score is unchanged by the mover's move. -/
theorem score_move_other {b : Board Player} {q : Player} {f t : HexIdx}
    (hft : f ≠ t) (hf : b f = some (some q)) (ht : b t = some none)
    {p : Player} (hpq : p ≠ q) :
    (board_apply_movement_unchecked b (f, t)).score p = b.score p := by
  have h := countP_apply_unchecked hft hf ht p (goal_indices p) (goal_indices_nodup p)
  simpa [Board.score, hpq] using h

/-- Moving a piece preserves each player's total occupancy count. -/
theorem occupiedCount_move {b : Board Player} {q : Player} {f t : HexIdx}
    (hft : f ≠ t) (hf : b f = some (some q)) (ht : b t = some none)
    (hfmem : f ∈ allIndices) (htmem : t ∈ allIndices) (p : Player) :
    occupiedCount (board_apply_movement_unchecked b (f, t)) p = occupiedCount b p := by
  have h := countP_apply_unchecked hft hf ht p allIndices nodup_allIndices
  unfold occupiedCount
  by_cases hpq : p = q
  · subst hpq
    simp [hfmem, htmem] at h
    omega
  · simp [hfmem, htmem, hpq] at h
    exact h

/-- A piece of `q` on a goal cell guarantees a positive score. -/
theorem score_pos_of_goal_mem {b : Board Player} {q : Player} {f : HexIdx}
    (hf : b f = some (some q)) (hmem : f ∈ goal_indices q) : 1 ≤ b.score q := by
  have : 0 < (goal_indices q).countP (fun idx => decide (b idx = some (some q))) :=
    List.countP_pos_iff.mpr ⟨f, hmem, by simp [hf]⟩
  exact this

/-- Score 15 is exactly a fully occupied goal region. -/
theorem score_eq_fifteen_iff {b : Board Player} {w : Player} :
    b.score w = 15 ↔ goalFull b w := by
  unfold Board.score goalFull
  rw [show (15 : Nat) = (goal_indices w).length from (goal_indices_length w).symm]
  rw [List.countP_eq_length]
  constructor
  · intro h idx hidx
    have := h idx hidx
    simpa using this
  · intro h idx hidx
    simp [h idx hidx]

theorem check_winner_some {b : Board Player} {w : Player}
    (h : check_winner b = some w) : goalFull b w := by
  unfold check_winner at h
  have := List.find?_some h
  simp only [List.all_eq_true, decide_eq_true_eq] at this
  exact this

theorem check_winner_none {b : Board Player} :
    check_winner b = none ↔ ∀ w, ¬ goalFull b w := by
  unfold check_winner
  rw [List.find?_eq_none]
  constructor
  · intro h w hfull
    have hw : w ∈ Player.variants := by cases w <;> simp [Player.variants]
    have := h w hw
    simp only [List.all_eq_true, decide_eq_true_eq] at this
    exact this fun idx hidx => hfull idx hidx
  · intro h x hx
    simp only [List.all_eq_true, decide_eq_true_eq]
    intro hall
    exact h x hall

theorem check_winner_of_goalFull {b : Board Player} {w : Player}
    (h : goalFull b w) (hfirst : w = .player1 ∨ ¬ goalFull b .player1) :
    check_winner b = some w := by
  cases w
  case player1 =>
    unfold check_winner Player.variants
    rw [List.find?_cons_of_pos]
    simp only [List.all_eq_true, decide_eq_true_eq]
    exact fun idx hidx => h idx hidx
  case player2 =>
    rcases hfirst with h1 | h1
    · exact absurd h1 (by simp)
    · unfold check_winner Player.variants
      rw [List.find?_cons_of_neg, List.find?_cons_of_pos]
      · simp only [List.all_eq_true, decide_eq_true_eq]
        exact fun idx hidx => h idx hidx
      · simp only [List.all_eq_true, decide_eq_true_eq]
        intro hall
        exact h1 fun idx hidx => hall idx hidx

/-- The mover's move can never complete the opponent's goal region. -/
theorem opp_not_full_after {b : Board Player} {p : Player} {f t : HexIdx}
    (hft : f ≠ t) (hf : b f = some (some p)) (ht : b t = some none)
    (hpre : ¬ goalFull b p.opponent) :
    ¬ goalFull (board_apply_movement_unchecked b (f, t)) p.opponent := by
  intro hfull
  apply hpre
  intro idx hidx
  have h1 := hfull idx hidx
  rw [board_apply_unchecked_apply hf idx] at h1
  rcases eq_or_ne idx t with rfl | hxt
  · rw [if_pos rfl] at h1
    have : p = p.opponent := by
      have := Option.some.inj (Option.some.inj h1)
      exact this
    exact absurd this.symm (opponent_ne p)
  · rw [if_neg hxt] at h1
    rcases eq_or_ne idx f with rfl | hxf
    · rw [if_pos rfl] at h1
      exact absurd (Option.some.inj h1) (by simp)
    · rw [if_neg hxf] at h1
      exact h1

/-- The score bookkeeping of `next_status` matches the board scores after
the move. -/
theorem scores_update_eq {b : Board Player} {q : Player} {f t : HexIdx}
    (hft : f ≠ t) (hf : b f = some (some q)) (ht : b t = some none) :
    (if t ∈ goal_indices q
      then Scores.modify (if f ∈ goal_indices q
        then Scores.modify b.get_scores q (· - 1) else b.get_scores) q (· + 1)
      else (if f ∈ goal_indices q
        then Scores.modify b.get_scores q (· - 1) else b.get_scores))
    = (board_apply_movement_unchecked b (f, t)).get_scores := by
  have hmov := score_move_mover hft hf ht
  cases q
  case player1 =>
    have hoth : (board_apply_movement_unchecked b (f, t)).score .player2
        = b.score .player2 := score_move_other hft hf ht (by decide)
    by_cases hfg : f ∈ goal_indices Player.player1 <;>
      by_cases htg : t ∈ goal_indices Player.player1 <;>
      simp only [hfg, htg, if_true, if_false, ite_true, ite_false] at hmov ⊢ <;>
      [have hpos := score_pos_of_goal_mem hf hfg;
       have hpos := score_pos_of_goal_mem hf hfg; skip; skip] <;>
      simp only [Board.get_scores, Scores.modify, Prod.mk.injEq] <;>
      exact ⟨by omega, hoth.symm⟩
  case player2 =>
    have hoth : (board_apply_movement_unchecked b (f, t)).score .player1
        = b.score .player1 := score_move_other hft hf ht (by decide)
    by_cases hfg : f ∈ goal_indices Player.player2 <;>
      by_cases htg : t ∈ goal_indices Player.player2 <;>
      simp only [hfg, htg, if_true, if_false, ite_true, ite_false] at hmov ⊢ <;>
      [have hpos := score_pos_of_goal_mem hf hfg;
       have hpos := score_pos_of_goal_mem hf hfg; skip; skip] <;>
      simp only [Board.get_scores, Scores.modify, Prod.mk.injEq] <;>
      exact ⟨hoth.symm, by omega⟩

theorem validCell_of_starting {idx : HexIdx} :
    (idx ∈ PLAYER1_STARTING_POSITIONS → validCell idx = true) ∧
    (idx ∈ PLAYER2_STARTING_POSITIONS → validCell idx = true) := by
  constructor <;> intro h <;> revert h <;> revert idx <;> decide

/-- The invariant holds at `Game::new`. -/
theorem game_inv_init : GameInv Game.new := by
  refine ⟨?_, by decide, by decide, by decide, ?_⟩
  · intro idx hval
    rw [show Game.new.board = Board.new from rfl, board_new_apply]
    by_cases h1 : idx ∈ PLAYER1_STARTING_POSITIONS
    · exact absurd (validCell_of_starting.1 h1) (by simp [hval])
    · rw [if_neg h1]
      by_cases h2 : idx ∈ PLAYER2_STARTING_POSITIONS
      · exact absurd (validCell_of_starting.2 h2) (by simp [hval])
      · rw [if_neg h2, hval]
        simp
  · intro player turns scores hst
    have : check_winner Board.new = none := by decide
    exact this

/-- One generated movement applied via `apply_movement_unchecked` preserves
the invariant. -/
theorem game_inv_step {g : Game} (hinv : GameInv g) {player : Player}
    {turns : Nat} {scores : Scores}
    (hst : g.status = .playing player turns scores) {mf : MovementFull}
    (hm : mf ∈ iter_player_movements g.board player HOP_FUEL) :
    GameInv (g.apply_movement_unchecked mf.get_indices) := by
  obtain ⟨hval, hc1, hc2, hsc, hwin⟩ := hinv
  obtain ⟨hf, ht, hne, -⟩ := generator_soundness g.board player HOP_FUEL mf hm
  have hft : mf.origin ≠ mf.destination := Ne.symm hne
  have hvf : validCell mf.origin = true := by
    rcases hb : validCell mf.origin with _ | _
    · exact absurd (hval _ hb) (by simp [hf])
    · rfl
  have hvt : validCell mf.destination = true := by
    rcases hb : validCell mf.destination with _ | _
    · exact absurd (hval _ hb) (by simp [ht])
    · rfl
  have hfm : mf.origin ∈ allIndices := mem_allIndices.mpr (validCell_lt hvf)
  have htm : mf.destination ∈ allIndices := mem_allIndices.mpr (validCell_lt hvt)
  have hboard : (g.apply_movement_unchecked mf.get_indices).board
      = board_apply_movement_unchecked g.board (mf.origin, mf.destination) := rfl
  have hstatus : (g.apply_movement_unchecked mf.get_indices).status
      = Game.next_status
          { board := board_apply_movement_unchecked g.board (mf.origin, mf.destination)
            status := g.status
            history := g.history ++ [mf.get_indices] }
          (mf.origin, mf.destination) := rfl
  refine ⟨?_, ?_, ?_, ?_, ?_⟩
  · intro idx hvi
    rw [hboard, board_apply_unchecked_apply hf idx]
    rw [if_neg (by rintro rfl; rw [hvt] at hvi; cases hvi),
      if_neg (by rintro rfl; rw [hvf] at hvi; cases hvi)]
    exact hval idx hvi
  · rw [hboard, occupiedCount_move hft hf ht hfm htm]
    exact hc1
  · rw [hboard, occupiedCount_move hft hf ht hfm htm]
    exact hc2
  · rw [hboard, hstatus]
    unfold Game.next_status
    simp only [hst]
    have hseq := scores_update_eq hft hf ht
    have hsc' : scores = g.board.get_scores := by
      rw [hst] at hsc
      exact hsc
    rcases hcw : check_winner (board_apply_movement_unchecked g.board
        (mf.origin, mf.destination)) with _ | w <;>
      simp only [GameStatus.scores] <;>
      rw [hsc', ← hseq]
  · intro p0 n0 s0 hps
    rw [hstatus] at hps
    unfold Game.next_status at hps
    simp only [hst] at hps
    rcases hcw : check_winner (board_apply_movement_unchecked g.board
        (mf.origin, mf.destination)) with _ | w
    · exact hcw
    · rw [hcw] at hps
      cases hps

/-- Every coordinator-reachable game satisfies the invariant. -/
theorem reachable_inv {g : Game} (h : Reachable g) : GameInv g := by
  induction h with
  | init => exact game_inv_init
  | step g player turns scores mf hg hst hm ih => exact game_inv_step ih hst hm

theorem player_eq_of_ne_opponent {w p : Player} (h : w ≠ p.opponent) : w = p := by
  cases w <;> cases p <;> simp_all [Player.opponent]

/-- C3: applying a generated movement in a reachable playing state
transitions the game to `Finished` with winner `w` if and only if, after
the move, all 15 cells of `w`'s goal region (the opponent's starting
region) are occupied by `w`'s pieces; and for the mover this is equivalent
to `scores[mover] = 15` after the move. -/
theorem finish_iff_goal_full (g : Game) (hg : Reachable g) (player : Player)
    (turns : Nat) (scores : Scores) (hst : g.status = .playing player turns scores)
    (mf : MovementFull) (hm : mf ∈ iter_player_movements g.board player HOP_FUEL) :
    (∀ w, (∃ n s, (g.apply_movement_unchecked mf.get_indices).status = .finished w n s)
        ↔ goalFull (g.apply_movement_unchecked mf.get_indices).board w) ∧
    ((∃ n s, (g.apply_movement_unchecked mf.get_indices).status = .finished player n s)
        ↔ Scores.get (g.apply_movement_unchecked mf.get_indices).status.scores player
            = 15) := by
  have hinv := reachable_inv hg
  have hinv' := game_inv_step hinv hst hm
  obtain ⟨hval, hc1, hc2, hsc, hwin⟩ := hinv
  obtain ⟨hf, ht, hne, -⟩ := generator_soundness g.board player HOP_FUEL mf hm
  have hft : mf.origin ≠ mf.destination := Ne.symm hne
  have hboard : (g.apply_movement_unchecked mf.get_indices).board
      = board_apply_movement_unchecked g.board (mf.origin, mf.destination) := rfl
  have hstatus : (g.apply_movement_unchecked mf.get_indices).status
      = Game.next_status
          { board := board_apply_movement_unchecked g.board (mf.origin, mf.destination)
            status := g.status
            history := g.history ++ [mf.get_indices] }
          (mf.origin, mf.destination) := rfl
  have hprenone : ∀ w, ¬ goalFull g.board w :=
    check_winner_none.mp (hwin player turns scores hst)
  have hoppfull : ¬ goalFull
      (board_apply_movement_unchecked g.board (mf.origin, mf.destination))
      player.opponent :=
    opp_not_full_after hft hf ht (hprenone player.opponent)
  have hmain : ∀ w,
      (∃ n s, (g.apply_movement_unchecked mf.get_indices).status = .finished w n s)
        ↔ goalFull (g.apply_movement_unchecked mf.get_indices).board w := by
    intro w
    constructor
    · rintro ⟨n, s, hfin⟩
      rw [hstatus] at hfin
      unfold Game.next_status at hfin
      simp only [hst] at hfin
      rcases hcw : check_winner (board_apply_movement_unchecked g.board
          (mf.origin, mf.destination)) with _ | w'
      · rw [hcw] at hfin
        cases hfin
      · rw [hcw] at hfin
        obtain ⟨rfl, -, -⟩ : w' = w ∧ turns + 1 = n ∧ True := by
          cases hfin
          exact ⟨rfl, rfl, trivial⟩
        rw [hboard]
        exact check_winner_some hcw
    · intro hfull
      rw [hboard] at hfull
      have hw : w = player := by
        refine player_eq_of_ne_opponent fun heq => ?_
        rw [heq] at hfull
        exact hoppfull hfull
      subst hw
      have hcw : check_winner (board_apply_movement_unchecked g.board
          (mf.origin, mf.destination)) = some w := by
        refine check_winner_of_goalFull hfull ?_
        cases hwp : w
        · exact Or.inl rfl
        · refine Or.inr fun hp1 => ?_
          have : Player.player1 = w.opponent := by rw [hwp]; rfl
          rw [this] at hp1
          exact hoppfull hp1
      rw [hstatus]
      unfold Game.next_status
      simp only [hst, hcw]
      exact ⟨turns + 1, _, rfl⟩
  refine ⟨hmain, ?_⟩
  rw [hmain player]
  have hsc' : (g.apply_movement_unchecked mf.get_indices).status.scores
      = (g.apply_movement_unchecked mf.get_indices).board.get_scores :=
    hinv'.2.2.2.1
  rw [hsc', hboard]
  have hget : ∀ bb : Board Player, Scores.get bb.get_scores player = bb.score player := by
    intro bb
    cases player <;> rfl
  rw [hget]
  exact (score_eq_fifteen_iff).symm

/-! ## Claims C2, C3, C4: reachable-state invariants -/

/-- Witness for C3 at the first generated movement of the fresh game. -/
theorem finish_iff_goal_full_witness :
    (∃ n s, (Game.new.apply_movement_unchecked
        (MovementFull.move (12, 4) (11, 4)).get_indices).status
          = .finished .player1 n s)
      ↔ Scores.get (Game.new.apply_movement_unchecked
          (MovementFull.move (12, 4) (11, 4)).get_indices).status.scores
          .player1 = 15 :=
  (finish_iff_goal_full Game.new Reachable.init .player1 0 (0, 0) rfl
    (MovementFull.move (12, 4) (11, 4)) (by decide)).2

/-- C2: in every coordinator-reachable game state the status score array
equals the board scores — `scores[p]` is the number of `p`'s pieces
currently occupying `p`'s 15-cell goal region, for both players. -/
theorem scores_match_board (g : Game) (h : Reachable g) :
    g.status.scores = g.board.get_scores :=
  (reachable_inv h).2.2.2.1

/-- Witness for C2 at the initial game. -/
theorem scores_match_board_witness :
    Game.new.status.scores = Game.new.board.get_scores :=
  scores_match_board Game.new Reachable.init

/-- C4: in every coordinator-reachable game state exactly 15 cells are
occupied by Player 1 and exactly 15 by Player 2, and cells outside the
121-cell valid star region are never written (they stay `none`). -/
theorem occupancy_invariant (g : Game) (h : Reachable g) :
    occupiedCount g.board .player1 = 15 ∧
    occupiedCount g.board .player2 = 15 ∧
    ∀ idx, validCell idx = false → g.board idx = none := by
  obtain ⟨hval, hc1, hc2, -, -⟩ := reachable_inv h
  exact ⟨hc1, hc2, hval⟩

/-- Witness for C4 at the initial game. -/
theorem occupancy_invariant_witness :
    occupiedCount Game.new.board .player1 = 15 ∧
    occupiedCount Game.new.board .player2 = 15 :=
  have h := occupancy_invariant Game.new Reachable.init
  ⟨h.1, h.2.1⟩
